import Mathlib

/-!
Verification of the natural-language specification of the NLP-Cube
training pipelines against the sources in `src/`.

The development shallowly embeds the algorithmic parts of
`src/cube2/networks/multilingual_language_model.py` (skip-gram dataset
construction, sampling and batch assembly), `src/cube3/networks/parser.py`
(validation metrics and the tree decoder contract) into Lean.  Python
machine floats are modelled with exact rationals, Python strings with
lists of ASCII code points, and randomness with explicit draw streams.
-/

namespace NLPCube

/-! ## Case classes in `WordGram._make_data`
(`src/cube2/networks/multilingual_language_model.py`, lines 171-201)

Characters are modelled as ASCII code points; `pyLower`/`pyUpper` embed
Python's `str.lower`/`str.upper` on a single ASCII character. -/

def pyLower (c : Nat) : Nat :=
  if 65 ≤ c ∧ c ≤ 90 then c + 32 else c

def pyUpper (c : Nat) : Nat :=
  if 97 ≤ c ∧ c ≤ 122 then c - 32 else c

/-- Embeds the case-class computation of `_make_data`: the source first
sets `ch = words[ii][jj].lower()` and then branches on
`ch.lower() == ch.upper()` and `ch.lower() != ch`. -/
def caseClass (c : Nat) : Nat :=
  let ch := pyLower c
  if pyLower ch = pyUpper ch then 1
  else if pyLower ch ≠ ch then 2
  else 3

/-- Embeds one row of the `x_case` matrix built by `_make_data` for a
single word (so the padded width is `w.length + 2`): position `0` gets
the START marker class `1`, position `len(w) + 1` the STOP marker class
`1`, positions `1 .. len(w)` the per-character case class, and the row
is then reversed (`np.flip`). -/
def makeCaseRow (w : List Nat) : List Nat :=
  ((List.range (w.length + 2)).map (fun j =>
    if j = 0 then 1
    else if j = w.length + 1 then 1
    else caseClass (w.getD (j - 1) 0))).reverse

/-! ## Per-language metric totals in `Parser.validation_epoch_end`
(`src/cube3/networks/parser.py`, lines 331-393)

`pyDiv` embeds Python division, which raises `ZeroDivisionError` on a
zero divisor; a raised exception is modelled as `none`. -/

def pyDiv (a b : ℚ) : Option ℚ :=
  if b = 0 then none else some (a / b)

structure LangCounts where
  total : Nat
  upos_ok : Nat
  xpos_ok : Nat
  attrs_ok : Nat
  uas_ok : Nat
  las_ok : Nat

def zeroCounts : LangCounts := ⟨0, 0, 0, 0, 0, 0⟩

/-- Embeds the accumulation loop over `outputs` in
`validation_epoch_end`: each field of `language_result[lang_id]` is the
sum of the corresponding per-step counts. -/
def addCounts (a b : LangCounts) : LangCounts :=
  ⟨a.total + b.total, a.upos_ok + b.upos_ok, a.xpos_ok + b.xpos_ok,
   a.attrs_ok + b.attrs_ok, a.uas_ok + b.uas_ok, a.las_ok + b.las_ok⟩

def sumCounts (outs : List LangCounts) : LangCounts :=
  outs.foldl addCounts zeroCounts

structure LangMetrics where
  upos : Option ℚ
  xpos : Option ℚ
  attrs : Option ℚ
  uas : Option ℚ
  las : Option ℚ

/-- Embeds the per-language result block of `validation_epoch_end`:
`total = language_result[lang_index]['total']; if total == 0: total = 1`
followed by the five ratios `*_ok / total`. -/
def perLangRes (c : LangCounts) : LangMetrics :=
  let total : Nat := c.total
  let total : Nat := if total = 0 then 1 else total
  ⟨pyDiv (c.upos_ok : ℚ) (total : ℚ),
   pyDiv (c.xpos_ok : ℚ) (total : ℚ),
   pyDiv (c.attrs_ok : ℚ) (total : ℚ),
   pyDiv (c.uas_ok : ℚ) (total : ℚ),
   pyDiv (c.las_ok : ℚ) (total : ℚ)⟩

/-! ## Encodings save/load round-trip
(`src/cube2/networks/multilingual_language_model.py`, lines 81-98)

The JSON document written by `Encodings.save` is modelled as a small
JSON value type; `save` serializes `num_langs` and `char2int`, `load`
reads them back, failing on a malformed document. -/

inductive Json where
  | num : Nat → Json
  | obj : List (String × Json) → Json

def jsonLookup (k : String) : List (String × Json) → Option Json
  | [] => none
  | (k', v) :: rest => if k' = k then some v else jsonLookup k rest

def jsonAsNum : Json → Option Nat
  | Json.num n => some n
  | _ => none

def decodeCharMap : List (String × Json) → Option (List (String × Nat))
  | [] => some []
  | (k, Json.num n) :: rest =>
      match decodeCharMap rest with
      | some tl => some ((k, n) :: tl)
      | none => none
  | (_, Json.obj _) :: _ => none

structure Encodings where
  char2int : List (String × Nat)
  num_langs : Nat
deriving DecidableEq

/-- Embeds `Encodings.save`: `json_obj = {'num_langs': self._num_langs,
'char2int': self._char2int}`. -/
def saveEnc (e : Encodings) : Json :=
  Json.obj [("num_langs", Json.num e.num_langs),
            ("char2int", Json.obj (e.char2int.map (fun p => (p.1, Json.num p.2))))]

/-- Embeds `Encodings.load`: reads `char2int` then `num_langs` from the
parsed JSON object; a missing or ill-typed field is a load failure. -/
def loadEnc (j : Json) : Option Encodings :=
  match j with
  | Json.num _ => none
  | Json.obj fields =>
      match jsonLookup "char2int" fields, jsonLookup "num_langs" fields with
      | some (Json.obj cf), some (Json.num n) =>
          match decodeCharMap cf with
          | some m => some ⟨m, n⟩
          | none => none
      | _, _ => none

/-! ## Co-occurrence window in `SkipgramDataset.__init__`
(`src/cube2/networks/multilingual_language_model.py`, lines 245-263)

The inner loop is
`for jj in range(max(0, ii - win_size), min(len(seq) - 1, ii + win_size + 2))`
guarded by `if ii != jj`.  Natural-number subtraction reproduces
Python's `max(0, ii - win_size)`, and for `len(seq) = 0` both the
Python range (upper bound `-1`) and the Lean range are empty. -/

def windowJs (seqLen ii win : Nat) : List Nat :=
  let lo := ii - win
  let hi := min (seqLen - 1) (ii + win + 2)
  (List.range' lo (hi - lo)).filter (fun jj => ii ≠ jj)

/-- The neighbor words collected for the anchor at position `ii` of a
sequence: positions are words already mapped through `word2int`
(`some w` when `(word, lang)` qualifies, `none` otherwise), and a
window position `jj` contributes `seq[jj]` when it qualifies. -/
def collectDests (seq : List (Option Nat)) (win ii : Nat) : List Nat :=
  (windowJs seq.length ii win).filterMap (fun jj => seq.getD jj none)

/-! ## Conversion of neighbor lists to probabilities
(`src/cube2/networks/multilingual_language_model.py`, lines 268-303)

For each anchor, the source sorts the collected neighbor indices
(`tgt_list = list(sorted(targets[w_index]))`), builds the array
`occ` (`occ[ii]` counts how many times `tgt_list[ii]` has repeated so
far within its run), keeps index `ii` when
`ii == len(tgt_list) - 1 or occ[ii] >= occ[ii + 1]`, and turns the
kept counts into cumulative probabilities.  `pySorted` embeds Python's
`sorted` (insertion sort; stability is irrelevant for integer keys). -/

def insSorted (x : Nat) : List Nat → List Nat
  | [] => [x]
  | y :: ys => if x ≤ y then x :: y :: ys else y :: insSorted x ys

def pySorted (l : List Nat) : List Nat := l.foldr insSorted []

/-- Embeds the `occ` loop: `occ[ii] = occ[ii-1] + 1` when
`tgt_list[ii] == tgt_list[ii-1]`, else `1`; `prev`/`cnt` carry the
previous element and its `occ` value. -/
def occFrom (prev cnt : Nat) : List Nat → List Nat
  | [] => []
  | y :: ys =>
      if y = prev then (cnt + 1) :: occFrom y (cnt + 1) ys
      else 1 :: occFrom y 1 ys

def occList : List Nat → List Nat
  | [] => []
  | x :: xs => 1 :: occFrom x 1 xs

/-- Embeds the keep loop over `(tgt_list[ii], occ[ii])` pairs: index
`ii` is kept when it is the last index or `occ[ii] >= occ[ii + 1]`. -/
def keepStep : List (Nat × Nat) → List (Nat × Nat)
  | [] => []
  | [p] => [p]
  | p :: q :: rest =>
      if q.2 ≤ p.2 then p :: keepStep (q :: rest) else keepStep (q :: rest)

/-- The `(new_targets, new_occ)` pairs surviving the keep loop for a
raw neighbor list. -/
def collapsed (targets : List Nat) : List (Nat × Nat) :=
  let tgt := pySorted targets
  keepStep (tgt.zip (occList tgt))

/-- Run-length encoding seeded with a pending run `(prev, cnt)`; the
reference shape that the keep loop is proved to produce. -/
def runEncodeFrom (prev cnt : Nat) : List Nat → List (Nat × Nat)
  | [] => [(prev, cnt)]
  | y :: ys =>
      if y = prev then runEncodeFrom prev (cnt + 1) ys
      else (prev, cnt) :: runEncodeFrom y 1 ys

/-- Embeds the cumulative loop: each kept count is divided by `total`
and added to the running `last_prob`. -/
def cumFrom (total last : ℚ) : List Nat → List ℚ
  | [] => []
  | c :: cs => (last + (c : ℚ) / total) :: cumFrom total (last + (c : ℚ) / total) cs

/-- The `FlatMap` contents (`_keys`, cumulative `_objects`) produced
for one anchor's raw neighbor list `targets`. -/
def flatMapOf (targets : List Nat) : List Nat × List ℚ :=
  let kept := collapsed targets
  let total : Nat := (kept.map Prod.snd).sum
  (kept.map Prod.fst, cumFrom (total : ℚ) 0 (kept.map Prod.snd))

/-! ## Positive sampling binary search: `SkipgramDataset._pos_sample_n`
(`src/cube2/networks/multilingual_language_model.py`, lines 324-348)

`_get_item(keys, probs, prob)` runs `start = 0; end = len(keys) - 1`
and loops while `start < end`: it computes `mid = (start + end) // 2`,
`max_prob = probs[mid]`, `min_prob = probs[mid - 1] if mid > 0 else 0`,
returns `keys[mid]` when `min_prob <= prob <= max_prob`, otherwise
moves `start` to `mid + 1` when `max_prob <= prob` and `end` to
`mid - 1` when `min_prob >= prob`; when the bracket collapses it
returns `keys[0]`.  The loop shrinks `end - start` every iteration, so
a fuel of `len(keys)` iterations is enough; the fuel-exhaustion branch
returns the same `keys[0]` as the collapsed bracket.  In Python,
`end = mid - 1` at `mid = 0` gives `-1`; truncated subtraction gives
`0` — both fail `start < end` immediately, with the same result. -/

def getItemGo (keys : List Nat) (probs : List ℚ) (prob : ℚ) :
    Nat → Nat → Nat → Nat
  | 0, _, _ => keys.getD 0 0
  | fuel + 1, s, e =>
      if s < e then
        if (if 0 < (s + e) / 2 then probs.getD ((s + e) / 2 - 1) 0 else 0) ≤ prob ∧
            prob ≤ probs.getD ((s + e) / 2) 0 then
          keys.getD ((s + e) / 2) 0
        else
          getItemGo keys probs prob fuel
            (if probs.getD ((s + e) / 2) 0 ≤ prob then (s + e) / 2 + 1 else s)
            (if prob ≤ (if 0 < (s + e) / 2 then probs.getD ((s + e) / 2 - 1) 0 else 0)
             then (s + e) / 2 - 1 else e)
      else keys.getD 0 0

/-- Embeds `_get_item` as invoked by `_pos_sample_n` on a draw value
`prob` against a FlatMap's `_keys`/`_objects`. -/
def getItem (keys : List Nat) (probs : List ℚ) (prob : ℚ) : Nat :=
  getItemGo keys probs prob keys.length 0 (keys.length - 1)

/-! ## Negative sampling: `SkipgramDataset._neg_sample_n`
(`src/cube2/networks/multilingual_language_model.py`, lines 350-357)

Randomness is modelled by an explicit stream of draws, one per loop
iteration; each draw `r` stands for `random.randint(0, len(pool) - 1)`
and indexes into the same-language pool.  An exhausted stream models a
run of the unbounded `while` loop that has not yet terminated. -/

def negSampleGo (keys pool : List Nat) (nSamples : Nat) :
    List Nat → List Nat → Option (List Nat)
  | samp, [] => if nSamples ≤ samp.length then some samp else none
  | samp, r :: rest =>
      if nSamples ≤ samp.length then some samp
      else
        if pool.getD r 0 ∈ keys then negSampleGo keys pool nSamples samp rest
        else negSampleGo keys pool nSamples (samp ++ [pool.getD r 0]) rest

/-- Embeds `_neg_sample_n`: `keys` is the key set of the anchor's
positive-neighbor distribution (`probs`), `pool` is
`self._lang2widx[lang_id]`. -/
def negSampleN (keys pool : List Nat) (nSamples : Nat) (draws : List Nat) :
    Option (List Nat) :=
  negSampleGo keys pool nSamples [] draws

/-! ## Batch assembly: `get_next_batch` and the training/eval loops
(`src/cube2/networks/multilingual_language_model.py`, lines 359-383 and
529-556)

Each anchor produced by `get_next_batch` carries its surface form and
language (`x`, `l`), positive samples (`y_pos`), negative samples
(`y_neg`) and dictionary positives with their own languages
(`y_pos_t`).  The loop appends, per anchor: the anchor itself, its
positives, its negatives, then its dictionary positives, recording in
`x2pos`/`x2neg` the flat index (`len(words)` at append time) of each
sample, keyed by the anchor's flat index `w_index`.  Surface forms are
modelled as integers. -/

structure AnchorSample where
  word : Nat
  lang : Nat
  pos : List Nat
  neg : List Nat
  dictPos : List (Nat × Nat)

structure AsmState where
  words : List Nat
  langs : List Nat
  x2pos : List (Nat × List Nat)
  x2neg : List (Nat × List Nat)

/-- Embeds the inner `for ww in y_pos[cnt]`/`for ww in y_neg[cnt]`
loops: each token is appended together with the anchor's language, and
its flat index (the length of `words` just before the append) is
collected. -/
def pushTokens (lg : Nat) : List Nat → List Nat → List Nat → List Nat × List Nat × List Nat
  | [], ws, ls => (ws, ls, [])
  | w :: rest, ws, ls =>
      let r := pushTokens lg rest (ws ++ [w]) (ls ++ [lg])
      (r.1, r.2.1, ws.length :: r.2.2)

/-- Embeds the `for (ww, l_id) in y_pos_t[cnt]` loop: dictionary
positives carry their own language id. -/
def pushPairs : List (Nat × Nat) → List Nat → List Nat → List Nat × List Nat × List Nat
  | [], ws, ls => (ws, ls, [])
  | (w, lg) :: rest, ws, ls =>
      let r := pushPairs rest (ws ++ [w]) (ls ++ [lg])
      (r.1, r.2.1, ws.length :: r.2.2)

/-- One iteration of the assembly loop body for a single anchor. -/
def assembleStep (st : AsmState) (a : AnchorSample) : AsmState :=
  let i0 := st.words.length
  let rp := pushTokens a.lang a.pos (st.words ++ [a.word]) (st.langs ++ [a.lang])
  let rn := pushTokens a.lang a.neg rp.1 rp.2.1
  let rd := pushPairs a.dictPos rn.1 rn.2.1
  ⟨rd.1, rd.2.1,
   st.x2pos ++ [(i0, rp.2.2 ++ rd.2.2)],
   st.x2neg ++ [(i0, rn.2.2)]⟩

/-- The full assembly loop over one batch of anchors. -/
def assemble (batch : List AnchorSample) : AsmState :=
  batch.foldl assembleStep ⟨[], [], [], []⟩

/-- Reference layout: the tokens one anchor contributes to the flat
list, in order anchor, positives, negatives, dictionary positives. -/
def flatWords (a : AnchorSample) : List Nat :=
  a.word :: (a.pos ++ a.neg ++ a.dictPos.map Prod.fst)

/-- Reference layout: the parallel language ids (the anchor's language
for anchor/positives/negatives, each dictionary positive's own). -/
def flatLangs (a : AnchorSample) : List Nat :=
  a.lang :: (a.pos.map (fun _ => a.lang) ++ a.neg.map (fun _ => a.lang) ++
    a.dictPos.map Prod.snd)

def sampleSize (a : AnchorSample) : Nat :=
  1 + a.pos.length + a.neg.length + a.dictPos.length

def flatAllWords (batch : List AnchorSample) : List Nat :=
  (batch.map flatWords).flatten

def flatAllLangs (batch : List AnchorSample) : List Nat :=
  (batch.map flatLangs).flatten

/-- Reference `x2pos` contents: for the anchor at flat offset `o`, its
positives sit at `o+1, …, o+|pos|` and its dictionary positives at
`o+1+|pos|+|neg|, …`. -/
def expPos (o : Nat) : List AnchorSample → List (Nat × List Nat)
  | [] => []
  | a :: rest =>
      (o, List.range' (o + 1) a.pos.length ++
          List.range' (o + 1 + a.pos.length + a.neg.length) a.dictPos.length) ::
        expPos (o + sampleSize a) rest

/-- Reference `x2neg` contents: for the anchor at flat offset `o`, its
negatives sit at `o+1+|pos|, …, o+|pos|+|neg|`. -/
def expNeg (o : Nat) : List AnchorSample → List (Nat × List Nat)
  | [] => []
  | a :: rest =>
      (o, List.range' (o + 1 + a.pos.length) a.neg.length) ::
        expNeg (o + sampleSize a) rest

/-! ## Non-projective tree decoder used by `Parser.validation_step`
(`src/cube3/networks/parser.py`, lines 80 and 281-294)

Modelled from the spec: the class `ChuLiuEdmondsDecoder` instantiated
at line 80 and invoked as `self._decoder.decode(att, sl)` is imported
from `cube3.networks.utils`, which is not among the sources.  Spec §4.7
fixes its contract: for a per-sentence square score matrix, output a
head assignment forming a legal single-rooted directed spanning tree
(exactly one token attached to the root, every token reaching the root,
hence no cycles) that maximizes the total edge score.  `cleDecode`
models that contract as the maximizer over all legal head assignments;
scores are exact rationals (`att` is real-valued), `scores i j` being
token `i`'s score for candidate head `j` (`0` = the prepended root).
A head array for a sentence of `n` tokens is a list of `n` head ids in
`0 .. n`. -/

def allLists (k : Nat) : Nat → List (List Nat)
  | 0 => [[]]
  | n + 1 => (((List.range k).map (fun h => (allLists k n).map (fun t => h :: t)))).flatten

/-- Follow head pointers for `fuel` steps from token `t` (tokens are
`1`-based; `0` is the root, a fixed point). -/
def iterHead (heads : List Nat) : Nat → Nat → Nat
  | 0, t => t
  | fuel + 1, t => if t = 0 then 0 else iterHead heads fuel (heads.getD (t - 1) 0)

/-- Token `t` reaches the root within `heads.length` steps; for a head
assignment over `n` tokens this holds for every token exactly when the
assignment is cycle-free. -/
def reachesRoot (heads : List Nat) (t : Nat) : Bool :=
  iterHead heads heads.length t == 0

/-- A legal single-rooted spanning tree over `n` tokens: exactly one
token has head `0` (the root) and every token reaches the root (no
cycles). -/
def isValidTree (n : Nat) (heads : List Nat) : Bool :=
  (heads.count 0 == 1) && (List.range n).all (fun i => reachesRoot heads (i + 1))

/-- Total score of a head assignment: token `i + 1` contributes its
score for the head it was assigned. -/
def treeScore (scores : Nat → Nat → ℚ) (heads : List Nat) : ℚ :=
  ((List.range heads.length).map (fun i => scores (i + 1) (heads.getD i 0))).sum

def validTrees (n : Nat) : List (List Nat) :=
  (allLists (n + 1) n).filter (fun t => isValidTree n t)

/-- The decoder contract: return the legal head assignment of maximal
total score (the empty assignment for a degenerate empty sentence). -/
def cleDecode (scores : Nat → Nat → ℚ) (n : Nat) : List Nat :=
  match validTrees n with
  | [] => List.replicate n 0
  | t :: ts =>
      ts.foldl (fun best t' => if treeScore scores best < treeScore scores t' then t' else best) t

/-- A concrete score matrix used to instantiate the decoder theorem. -/
def exScores : Nat → Nat → ℚ :=
  fun i j => ((i * j + j : Nat) : ℚ)

/-! # Theorems -/

theorem pyLower_idem (c : Nat) : pyLower (pyLower c) = pyLower c := by
  unfold pyLower
  by_cases h : 65 ≤ c ∧ c ≤ 90
  · rw [if_pos h, if_neg (by omega)]
  · rw [if_neg h, if_neg h]

theorem caseClass_ne_two (c : Nat) : caseClass c ≠ 2 := by
  unfold caseClass
  have h := pyLower_idem c
  simp only [h]
  split
  · omega
  · simp

/-- C8: evaluation of the case-class computation at the divergence
point.  The source assigns `ch = words[ii][jj].lower()` and then tests
`ch.lower() != ch`, which never holds for an already-lowercased
character, so the uppercase class `2` is unreachable: both `'A'` (65)
and `'a'` (97) receive class `3`, and the words `"Ab"` and `"ab"`,
differing only in letter case, produce identical case rows — contrary
to the intended four-way case distinction. -/
theorem c8_uppercase_class_unreachable :
    (∀ c : Nat, caseClass c ≠ 2) ∧
    caseClass 65 = 3 ∧ caseClass 97 = 3 ∧
    makeCaseRow [65, 98] = makeCaseRow [97, 98] :=
  ⟨caseClass_ne_two, by decide, by decide, by decide⟩

theorem mem_windowJs (seqLen ii win j : Nat) :
    j ∈ windowJs seqLen ii win ↔
      j ≠ ii ∧ ii - win ≤ j ∧ j + 1 < seqLen ∧ j < ii + win + 2 := by
  unfold windowJs
  simp only [List.mem_filter, List.mem_range'_1, decide_eq_true_eq]
  constructor
  · rintro ⟨⟨h1, h2⟩, h3⟩
    omega
  · rintro ⟨h1, h2, h3, h4⟩
    exact ⟨⟨h2, by omega⟩, by omega⟩

/-- C4 counterexample: in the sequence `[10, 11, 12]` (all three words
qualifying) with window size `W = 1`, position `2` lies inside the
claimed symmetric window of the anchor at position `1`
(`i - W ≤ 2 ≤ i + W`, `2 ≠ i`, `2 < len`), yet the word `12` at
position `2` is not collected — the last position of a sequence is
never a neighbor.  Moreover the window is not symmetric: for a
length-5 sequence, position `2 = i + W + 1 > i + W` is collected for
the anchor at `0` with `W = 1`. -/
theorem c4_counterexample :
    ((1:Nat) - 1 ≤ 2 ∧ (2:Nat) ≤ 1 + 1 ∧ (2:Nat) ≠ 1 ∧ (2:Nat) < 3) ∧
    collectDests [some 10, some 11, some 12] 1 1 = [10] ∧
    (12 ∉ collectDests [some 10, some 11, some 12] 1 1) ∧
    2 ∈ windowJs 5 0 1 ∧ (2:Nat) > 0 + 1 := by
  decide

/-- C4 (amended): the co-occurrence builder collects, as neighbors of
the anchor at position `i`, exactly the qualifying words at positions
`j` with `max(0, i - W) ≤ j ≤ min(len - 2, i + W + 1)` and `j ≠ i`:
the right window extends one position beyond `W` and the last position
of the sequence is never collected, so the window is asymmetric. -/
theorem c4_window_neighbors (seq : List (Option Nat)) (win ii w : Nat) :
    w ∈ collectDests seq win ii ↔
      ∃ jj, jj ≠ ii ∧ ii - win ≤ jj ∧ jj + 1 < seq.length ∧
        jj < ii + win + 2 ∧ seq.getD jj none = some w := by
  unfold collectDests
  simp only [List.mem_filterMap]
  constructor
  · rintro ⟨jj, hmem, hget⟩
    rw [mem_windowJs] at hmem
    exact ⟨jj, hmem.1, hmem.2.1, hmem.2.2.1, hmem.2.2.2, hget⟩
  · rintro ⟨jj, h1, h2, h3, h4, h5⟩
    exact ⟨jj, (mem_windowJs _ _ _ _).2 ⟨h1, h2, h3, h4⟩, h5⟩

theorem getItemGo_spec (keys : List Nat) (probs : List ℚ) (prob : ℚ) :
    ∀ (fuel s e : Nat), e < probs.length →
      getItemGo keys probs prob fuel s e = keys.getD 0 0 ∨
      ∃ m, m < probs.length ∧
        (if 0 < m then probs.getD (m - 1) 0 else 0) ≤ prob ∧
        prob ≤ probs.getD m 0 ∧
        getItemGo keys probs prob fuel s e = keys.getD m 0 := by
  intro fuel
  induction fuel with
  | zero => intro s e _; left; rfl
  | succ fuel ih =>
      intro s e he
      unfold getItemGo
      by_cases hse : s < e
      · rw [if_pos hse]
        by_cases hint :
            ((if 0 < (s + e) / 2 then probs.getD ((s + e) / 2 - 1) 0 else 0) ≤ prob ∧
              prob ≤ probs.getD ((s + e) / 2) 0)
        · rw [if_pos hint]
          right
          exact ⟨(s + e) / 2, by omega, hint.1, hint.2, rfl⟩
        · rw [if_neg hint]
          apply ih
          by_cases hlow :
              prob ≤ (if 0 < (s + e) / 2 then probs.getD ((s + e) / 2 - 1) 0 else 0)
          · rw [if_pos hlow]; omega
          · rw [if_neg hlow]; omega
      · rw [if_neg hse]
        left; rfl

theorem pairwise_lt_getD (probs : List ℚ) (h : probs.Pairwise (· < ·))
    (i k : Nat) (hik : i < k) (hk : k < probs.length) :
    probs.getD i 0 < probs.getD k 0 := by
  have hi : i < probs.length := lt_trans hik hk
  rw [probs.getD_eq_getElem 0 hi, probs.getD_eq_getElem 0 hk]
  exact List.pairwise_iff_getElem.1 h i k hi hk hik

/-- C3 counterexample: for the distribution with keys `[10, 20, 30]`
and strictly increasing cumulative probabilities `[1/5, 1/2, 1]`
(last entry `1`), the draw value `1/5` equals bucket 0's cumulative
probability — the first bucket whose cumulative value is `≥` the draw
is bucket 0, with key `10` — yet `_get_item` returns `20`, bucket 1's
key, because the midpoint interval test `min_prob <= prob <= max_prob`
is inclusive on its lower edge as well. -/
theorem c3_counterexample :
    ([(1:ℚ)/5, 1/2, 1].Pairwise (· < ·)) ∧
    ([(1:ℚ)/5, 1/2, 1].getLast? = some 1) ∧
    getItem [10, 20, 30] [(1:ℚ)/5, 1/2, 1] (1/5) = 20 ∧ (20:Nat) ≠ 10 := by
  refine ⟨?_, ?_, ?_, ?_⟩
  · norm_num
  · rfl
  · simp only [getItem, getItemGo]
    norm_num
  · decide

/-- C3 (amended): on a strictly increasing cumulative array, a draw
value exactly equal to bucket `j`'s cumulative probability makes
`_get_item` return the key of a bucket whose closed cumulative
interval contains the draw — bucket `j` itself or the following bucket
`j + 1`, whichever midpoint the search visits first — and when the
bracket collapses without a match it returns the first key. -/
theorem c3_boundary_draw (keys : List Nat) (probs : List ℚ) (j : Nat)
    (prob : ℚ)
    (hlen : keys.length = probs.length)
    (hmono : probs.Pairwise (· < ·))
    (hj : j < probs.length)
    (hprob : prob = probs.getD j 0) :
    getItem keys probs prob = keys.getD 0 0 ∨
    getItem keys probs prob = keys.getD j 0 ∨
    getItem keys probs prob = keys.getD (j + 1) 0 := by
  unfold getItem
  have he : keys.length - 1 < probs.length := by omega
  rcases getItemGo_spec keys probs prob keys.length 0 (keys.length - 1) he with h | ⟨m, hm, hlow, hhigh, heq⟩
  · exact Or.inl h
  · have hjm : j ≤ m := by
      by_contra hc
      have : probs.getD m 0 < probs.getD j 0 := pairwise_lt_getD probs hmono m j (by omega) hj
      rw [← hprob] at this
      linarith
    have hmj : m ≤ j + 1 := by
      by_cases hm0 : 0 < m
      · rw [if_pos hm0] at hlow
        by_contra hc
        have : probs.getD j 0 < probs.getD (m - 1) 0 :=
          pairwise_lt_getD probs hmono j (m - 1) (by omega) (by omega)
        rw [← hprob] at this
        linarith
      · omega
    rcases Nat.eq_or_lt_of_le hjm with hjm' | hjm'
    · right; left; rw [heq, hjm']
    · right; right
      rw [heq]
      have : m = j + 1 := by omega
      rw [this]

/-- C3 witness: at keys `[10, 20, 30]`, cumulative probabilities
`[1/5, 1/2, 1]` and a draw equal to bucket 0's cumulative value, the
search returns the first key, bucket 0's key or bucket 1's key. -/
theorem c3_boundary_draw_witness :
    (([10, 20, 30] : List Nat).length = ([(1:ℚ)/5, 1/2, 1] : List ℚ).length ∧
      ([(1:ℚ)/5, 1/2, 1].Pairwise (· < ·)) ∧ 0 < ([(1:ℚ)/5, 1/2, 1] : List ℚ).length ∧
      (1:ℚ)/5 = [(1:ℚ)/5, 1/2, 1].getD 0 0) ∧
    (getItem [10, 20, 30] [(1:ℚ)/5, 1/2, 1] (1/5) = [10, 20, 30].getD 0 0 ∨
      getItem [10, 20, 30] [(1:ℚ)/5, 1/2, 1] (1/5) = [10, 20, 30].getD 0 0 ∨
      getItem [10, 20, 30] [(1:ℚ)/5, 1/2, 1] (1/5) = [10, 20, 30].getD 1 0) :=
  ⟨⟨rfl, by norm_num, by decide, rfl⟩,
    c3_boundary_draw [10, 20, 30] [(1:ℚ)/5, 1/2, 1] 0 (1/5) rfl (by norm_num)
      (by decide) rfl⟩

theorem negSampleGo_sound (keys pool : List Nat) (n : Nat) :
    ∀ (draws samp0 samp : List Nat), samp0.length ≤ n →
      (∀ x ∈ samp0, x ∈ pool ∧ x ∉ keys) →
      (∀ r ∈ draws, r < pool.length) →
      negSampleGo keys pool n samp0 draws = some samp →
      samp.length = n ∧ ∀ x ∈ samp, x ∈ pool ∧ x ∉ keys := by
  intro draws
  induction draws with
  | nil =>
      intro samp0 samp h0len h0 _ h
      unfold negSampleGo at h
      split at h
      · cases h
        exact ⟨by omega, h0⟩
      · cases h
  | cons r rest ih =>
      intro samp0 samp h0len h0 hdr h
      unfold negSampleGo at h
      split at h
      · cases h
        exact ⟨by omega, h0⟩
      · rename_i hlt
        split at h
        · exact ih samp0 samp h0len h0 (fun x hx => hdr x (List.mem_cons_of_mem r hx)) h
        · rename_i hnotin
          refine ih (samp0 ++ [pool.getD r 0]) samp ?_ ?_
            (fun x hx => hdr x (List.mem_cons_of_mem r hx)) h
          · simp only [List.length_append, List.length_singleton]
            omega
          · intro x hx
            rcases List.mem_append.1 hx with hx | hx
            · exact h0 x hx
            · have hx' : x = pool.getD r 0 := List.mem_singleton.1 hx
              subst hx'
              have hr : r < pool.length := hdr r (List.mem_cons_self r rest)
              refine ⟨?_, hnotin⟩
              rw [List.getD_eq_getElem pool 0 hr]
              exact List.getElem_mem hr

/-- C6: whenever `_neg_sample_n` terminates (here: whenever the modelled
draw stream suffices and the function returns a result), it returns
exactly `n_samples` word indices, each an element of the same-language
pool `lang_word_idx`, and none of them present in the anchor's
positive-neighbor distribution key set. -/
theorem c6_neg_sample_sound (keys pool : List Nat) (n : Nat)
    (draws samp : List Nat)
    (hdr : ∀ r ∈ draws, r < pool.length)
    (h : negSampleN keys pool n draws = some samp) :
    samp.length = n ∧ ∀ x ∈ samp, x ∈ pool ∧ x ∉ keys :=
  negSampleGo_sound keys pool n draws [] samp (Nat.zero_le n)
    (by intro x hx; cases hx) hdr h

/-- C6 witness: with keys `[3]`, pool `[3, 4, 5]`, two requested
samples and draws `[0, 1, 2]`, the sampler skips the excluded word `3`
and returns `[4, 5]`, which has length 2, lies in the pool and avoids
the key set. -/
theorem c6_neg_sample_sound_witness :
    (∀ r ∈ ([0, 1, 2] : List Nat), r < ([3, 4, 5] : List Nat).length) ∧
    negSampleN [3] [3, 4, 5] 2 [0, 1, 2] = some [4, 5] ∧
    ([4, 5] : List Nat).length = 2 :=
  ⟨by decide, by decide,
    (c6_neg_sample_sound [3] [3, 4, 5] 2 [0, 1, 2] [4, 5] (by decide) (by decide)).1⟩

theorem pushTokens_spec (lg : Nat) :
    ∀ (items ws ls : List Nat),
      pushTokens lg items ws ls =
        (ws ++ items, ls ++ items.map (fun _ => lg), List.range' ws.length items.length) := by
  intro items
  induction items with
  | nil => intro ws ls; simp [pushTokens]
  | cons w rest ih =>
      intro ws ls
      simp only [pushTokens, ih (ws ++ [w]) (ls ++ [lg]), List.map_cons]
      simp [List.range'_succ]

theorem pushPairs_spec :
    ∀ (items : List (Nat × Nat)) (ws ls : List Nat),
      pushPairs items ws ls =
        (ws ++ items.map Prod.fst, ls ++ items.map Prod.snd,
          List.range' ws.length items.length) := by
  intro items
  induction items with
  | nil => intro ws ls; simp [pushPairs]
  | cons p rest ih =>
      obtain ⟨w, lg⟩ := p
      intro ws ls
      simp only [pushPairs, ih (ws ++ [w]) (ls ++ [lg]), List.map_cons]
      simp [List.range'_succ]

theorem flatWords_length (a : AnchorSample) : (flatWords a).length = sampleSize a := by
  simp [flatWords, sampleSize]
  omega

theorem flatLangs_length (a : AnchorSample) : (flatLangs a).length = sampleSize a := by
  simp [flatLangs, sampleSize]
  omega

theorem assembleStep_spec (st : AsmState) (a : AnchorSample) :
    assembleStep st a =
      ⟨st.words ++ flatWords a, st.langs ++ flatLangs a,
       st.x2pos ++ [(st.words.length,
         List.range' (st.words.length + 1) a.pos.length ++
         List.range' (st.words.length + 1 + a.pos.length + a.neg.length) a.dictPos.length)],
       st.x2neg ++ [(st.words.length,
         List.range' (st.words.length + 1 + a.pos.length) a.neg.length)]⟩ := by
  unfold assembleStep
  simp only [pushTokens_spec, pushPairs_spec, List.length_append, List.length_singleton,
    List.length_map, AsmState.mk.injEq]
  refine ⟨?_, ?_, ?_, ?_⟩
  · simp [flatWords]
  · simp [flatLangs]
  · simp
  · simp

theorem assemble_go (batch : List AnchorSample) :
    ∀ st : AsmState,
      batch.foldl assembleStep st =
        ⟨st.words ++ flatAllWords batch, st.langs ++ flatAllLangs batch,
         st.x2pos ++ expPos st.words.length batch,
         st.x2neg ++ expNeg st.words.length batch⟩ := by
  induction batch with
  | nil =>
      intro st
      simp only [List.foldl_nil, flatAllWords, flatAllLangs, expPos, expNeg,
        List.map_nil, List.flatten_nil, List.append_nil]
  | cons a rest ih =>
      intro st
      rw [List.foldl_cons, assembleStep_spec, ih]
      simp only [flatAllWords, flatAllLangs, List.map_cons, List.flatten_cons, expPos, expNeg,
        AsmState.mk.injEq]
      refine ⟨?_, ?_, ?_, ?_⟩
      · simp
      · simp
      · simp [flatWords_length]
      · simp [flatWords_length]

theorem mem_allLists (k : Nat) : ∀ (n : Nat) (t : List Nat),
    t ∈ allLists k n ↔ t.length = n ∧ ∀ x ∈ t, x < k := by
  intro n
  induction n with
  | zero =>
      intro t
      simp only [allLists, List.mem_singleton]
      constructor
      · rintro rfl
        exact ⟨rfl, fun x hx => absurd hx (List.not_mem_nil x)⟩
      · rintro ⟨hl, _⟩
        exact List.length_eq_zero.1 hl
  | succ n ih =>
      intro t
      simp only [allLists, List.mem_flatten, List.mem_map, List.mem_range]
      constructor
      · rintro ⟨l, ⟨hd, hk, rfl⟩, ht⟩
        obtain ⟨t', ht', rfl⟩ := List.mem_map.1 ht
        obtain ⟨hlen, hbound⟩ := (ih t').1 ht'
        refine ⟨by simp [hlen], fun x hx => ?_⟩
        rcases List.mem_cons.1 hx with rfl | hx
        · exact hk
        · exact hbound x hx
      · rintro ⟨hlen, hbound⟩
        cases t with
        | nil => cases hlen
        | cons hd tl =>
            refine ⟨(allLists k n).map (fun t => hd :: t),
              ⟨hd, hbound hd (List.mem_cons_self hd tl), rfl⟩, ?_⟩
            exact List.mem_map_of_mem _ ((ih tl).2
              ⟨by simpa using hlen, fun x hx => hbound x (List.mem_cons_of_mem hd hx)⟩)

theorem foldl_best_le (f : List Nat → ℚ) :
    ∀ (ts : List (List Nat)) (t : List Nat),
      f t ≤ f (ts.foldl (fun best x => if f best < f x then x else best) t) := by
  intro ts
  induction ts with
  | nil => intro t; exact le_refl _
  | cons x ts ih =>
      intro t
      simp only [List.foldl_cons]
      by_cases h : f t < f x
      · rw [if_pos h]
        exact le_of_lt (lt_of_lt_of_le h (ih x))
      · rw [if_neg h]
        exact ih t

theorem foldl_best_mem (f : List Nat → ℚ) :
    ∀ (ts : List (List Nat)) (t : List Nat),
      ts.foldl (fun best x => if f best < f x then x else best) t ∈ t :: ts := by
  intro ts
  induction ts with
  | nil => intro t; exact List.mem_cons_self t []
  | cons x ts ih =>
      intro t
      simp only [List.foldl_cons]
      by_cases h : f t < f x
      · rw [if_pos h]
        exact List.mem_cons_of_mem t (ih x)
      · rw [if_neg h]
        rcases List.mem_cons.1 (ih t) with h' | h'
        · rw [h']; exact List.mem_cons_self t (x :: ts)
        · exact List.mem_cons_of_mem t (List.mem_cons_of_mem x h')

theorem foldl_best_ge (f : List Nat → ℚ) :
    ∀ (ts : List (List Nat)) (t x : List Nat), x ∈ t :: ts →
      f x ≤ f (ts.foldl (fun best y => if f best < f y then y else best) t) := by
  intro ts
  induction ts with
  | nil =>
      intro t x hx
      rcases List.mem_cons.1 hx with rfl | hx'
      · exact le_refl _
      · exact absurd hx' (List.not_mem_nil x)
  | cons y ts ih =>
      intro t x hx
      simp only [List.foldl_cons]
      by_cases h : f t < f y
      · rw [if_pos h]
        rcases List.mem_cons.1 hx with rfl | hx'
        · exact le_trans (le_of_lt h) (foldl_best_le f ts y)
        · exact ih y x hx'
      · rw [if_neg h]
        rcases List.mem_cons.1 hx with rfl | hx'
        · exact foldl_best_le f ts x
        · rcases List.mem_cons.1 hx' with rfl | hx''
          · exact le_trans (not_lt.1 h) (foldl_best_le f ts t)
          · exact ih t x (List.mem_cons_of_mem t hx'')

theorem count_zero_range (n : Nat) (h : 1 ≤ n) : (List.range n).count 0 = 1 := by
  cases n with
  | zero => omega
  | succ m =>
      rw [List.range_succ_eq_map, List.count_cons_self]
      have hz : (List.map Nat.succ (List.range m)).count 0 = 0 := by
        rw [List.count_eq_zero]
        intro hmem
        obtain ⟨x, _, hx⟩ := List.mem_map.1 hmem
        omega
      rw [hz]

theorem iterHead_range (n : Nat) : ∀ (fuel t : Nat), t ≤ fuel → t ≤ n →
    iterHead (List.range n) fuel t = 0 := by
  intro fuel
  induction fuel with
  | zero =>
      intro t h1 _
      have : t = 0 := by omega
      subst this
      rfl
  | succ fuel ih =>
      intro t h1 h2
      unfold iterHead
      by_cases ht : t = 0
      · rw [if_pos ht]
      · rw [if_neg ht]
        have hlt : t - 1 < n := by omega
        have hget : (List.range n).getD (t - 1) 0 = t - 1 := by
          rw [List.getD_eq_getElem _ _ (by simpa using hlt)]
          simp
        rw [hget]
        exact ih (t - 1) (by omega) (by omega)

theorem chain_valid (n : Nat) (h : 1 ≤ n) : isValidTree n (List.range n) = true := by
  unfold isValidTree
  rw [Bool.and_eq_true]
  constructor
  · simp [count_zero_range n h]
  · rw [List.all_eq_true]
    intro i hi
    have hi' : i < n := List.mem_range.1 hi
    unfold reachesRoot
    rw [List.length_range]
    simp only [beq_iff_eq]
    exact iterHead_range n n (i + 1) (by omega) (by omega)

theorem chain_mem_validTrees (n : Nat) (h : 1 ≤ n) : List.range n ∈ validTrees n := by
  unfold validTrees
  rw [List.mem_filter]
  refine ⟨(mem_allLists (n + 1) n _).2
    ⟨List.length_range n, fun x hx => ?_⟩, chain_valid n h⟩
  have := List.mem_range.1 hx
  omega

/-- C1: for every sentence length `n ≥ 1` and every real-valued square
score matrix (arbitrary rationals, not necessarily tree-consistent),
the tree decoder used by `Parser.validation_step` returns a head array
of length `n` that forms a legal arborescence — exactly one token has
head `0` (the root) and every token reaches the root, so there are no
cycles — and whose total score is `≥` that of every other spanning
arborescence over the same matrix. -/
theorem c1_tree_decoder (scores : Nat → Nat → ℚ) (n : Nat) (h : 1 ≤ n) :
    (cleDecode scores n).length = n ∧
    (cleDecode scores n).count 0 = 1 ∧
    ((List.range n).all (fun i => reachesRoot (cleDecode scores n) (i + 1)) = true) ∧
    ∀ t : List Nat, t.length = n → (∀ x ∈ t, x ≤ n) → isValidTree n t = true →
      treeScore scores t ≤ treeScore scores (cleDecode scores n) := by
  have hmem0 := chain_mem_validTrees n h
  cases hvt : validTrees n with
  | nil => rw [hvt] at hmem0; cases hmem0
  | cons t ts =>
      have hdec : cleDecode scores n =
          ts.foldl (fun best t' =>
            if treeScore scores best < treeScore scores t' then t' else best) t := by
        unfold cleDecode
        rw [hvt]
      have hmem : cleDecode scores n ∈ validTrees n := by
        rw [hdec, hvt]
        exact foldl_best_mem (treeScore scores) ts t
      have hval : isValidTree n (cleDecode scores n) = true :=
        (List.mem_filter.1 hmem).2
      have hall : cleDecode scores n ∈ allLists (n + 1) n :=
        (List.mem_filter.1 hmem).1
      have hlen : (cleDecode scores n).length = n :=
        ((mem_allLists (n + 1) n _).1 hall).1
      unfold isValidTree at hval
      rw [Bool.and_eq_true] at hval
      refine ⟨hlen, by simpa using hval.1, hval.2, ?_⟩
      intro t' hlen' hbound hval'
      have ht'mem : t' ∈ validTrees n := by
        unfold validTrees
        rw [List.mem_filter]
        refine ⟨(mem_allLists (n + 1) n t').2 ⟨hlen', fun x hx => ?_⟩, hval'⟩
        have := hbound x hx
        omega
      rw [hvt] at ht'mem
      rw [hdec]
      exact foldl_best_ge (treeScore scores) ts t t' ht'mem

/-- C1 witness: at sentence length 2 with the concrete score matrix
`exScores`, the decoded head array has exactly one token attached to
the root. -/
theorem c1_tree_decoder_witness :
    1 ≤ 2 ∧ (cleDecode exScores 2).count 0 = 1 :=
  ⟨by decide, (c1_tree_decoder exScores 2 (by decide)).2.1⟩

theorem sampleSize_pos (a : AnchorSample) : 1 ≤ sampleSize a := by
  unfold sampleSize
  omega

theorem flatAllWords_length (batch : List AnchorSample) :
    (flatAllWords batch).length = (batch.map sampleSize).sum := by
  induction batch with
  | nil => rfl
  | cons a rest ih =>
      simp only [flatAllWords, List.map_cons, List.flatten_cons, List.length_append,
        flatWords_length, List.sum_cons] at *
      omega

theorem flatAllLangs_length (batch : List AnchorSample) :
    (flatAllLangs batch).length = (batch.map sampleSize).sum := by
  induction batch with
  | nil => rfl
  | cons a rest ih =>
      simp only [flatAllLangs, List.map_cons, List.flatten_cons, List.length_append,
        flatLangs_length, List.sum_cons] at *
      omega

theorem expPos_bounds : ∀ (batch : List AnchorSample) (o : Nat),
    ∀ e ∈ expPos o batch,
      e.1 < o + (batch.map sampleSize).sum ∧
      ∀ j ∈ e.2, j < o + (batch.map sampleSize).sum := by
  intro batch
  induction batch with
  | nil => intro o e he; cases he
  | cons a rest ih =>
      intro o e he
      simp only [List.map_cons, List.sum_cons]
      rcases List.mem_cons.1 he with rfl | he
      · constructor
        · dsimp only
          have := sampleSize_pos a
          omega
        · intro j hj
          simp only [List.mem_append, List.mem_range'_1] at hj
          unfold sampleSize
          rcases hj with hj | hj <;> omega
      · have h := ih (o + sampleSize a) e he
        refine ⟨by omega, fun j hj => ?_⟩
        have := h.2 j hj
        omega

theorem expNeg_bounds : ∀ (batch : List AnchorSample) (o : Nat),
    ∀ e ∈ expNeg o batch,
      e.1 < o + (batch.map sampleSize).sum ∧
      ∀ j ∈ e.2, j < o + (batch.map sampleSize).sum := by
  intro batch
  induction batch with
  | nil => intro o e he; cases he
  | cons a rest ih =>
      intro o e he
      simp only [List.map_cons, List.sum_cons]
      rcases List.mem_cons.1 he with rfl | he
      · constructor
        · dsimp only
          have := sampleSize_pos a
          omega
        · intro j hj
          simp only [List.mem_range'_1] at hj
          unfold sampleSize
          omega
      · have h := ih (o + sampleSize a) e he
        refine ⟨by omega, fun j hj => ?_⟩
        have := h.2 j hj
        omega

theorem assemble_closed (batch : List AnchorSample) :
    assemble batch =
      ⟨flatAllWords batch, flatAllLangs batch, expPos 0 batch, expNeg 0 batch⟩ := by
  unfold assemble
  rw [assemble_go]
  simp only [List.nil_append, List.length_nil]

/-- C7: for every batch, the flattened token list built by the
training loop has length equal to the sum over anchors of
`1 + |positives| + |negatives| + |dictionary positives|`; the language
list is parallel (same length, same layout); the flat list is laid out
per anchor as anchor, positives, negatives, dictionary positives
(`flatAllWords`/`flatAllLangs`); `x2pos` maps each anchor's flat index
to the flat indices of its positive and dictionary-positive samples and
`x2neg` to those of its negative samples at exactly those offsets
(`expPos`/`expNeg`); and every recorded index is within bounds. -/
theorem c7_batch_assembler (batch : List AnchorSample) :
    (assemble batch).words.length = (batch.map sampleSize).sum ∧
    (assemble batch).langs.length = (assemble batch).words.length ∧
    (assemble batch).words = flatAllWords batch ∧
    (assemble batch).langs = flatAllLangs batch ∧
    (assemble batch).x2pos = expPos 0 batch ∧
    (assemble batch).x2neg = expNeg 0 batch ∧
    (∀ e ∈ (assemble batch).x2pos, e.1 < (assemble batch).words.length ∧
      ∀ j ∈ e.2, j < (assemble batch).words.length) ∧
    (∀ e ∈ (assemble batch).x2neg, e.1 < (assemble batch).words.length ∧
      ∀ j ∈ e.2, j < (assemble batch).words.length) := by
  rw [assemble_closed]
  dsimp only
  refine ⟨flatAllWords_length batch, ?_, rfl, rfl, rfl, rfl, ?_, ?_⟩
  · rw [flatAllLangs_length, flatAllWords_length]
  · intro e he
    have h := expPos_bounds batch 0 e he
    rw [flatAllWords_length]
    refine ⟨by omega, fun j hj => ?_⟩
    have := h.2 j hj
    omega
  · intro e he
    have h := expNeg_bounds batch 0 e he
    rw [flatAllWords_length]
    refine ⟨by omega, fun j hj => ?_⟩
    have := h.2 j hj
    omega

theorem decodeCharMap_encode (m : List (String × Nat)) :
    decodeCharMap (m.map (fun p => (p.1, Json.num p.2))) = some m := by
  induction m with
  | nil => rfl
  | cons p rest ih =>
      obtain ⟨k, n⟩ := p
      simp only [List.map_cons, decodeCharMap, ih]

/-- C9: saving an `Encodings` state and loading the resulting document
restores the state exactly: `load` applied to the JSON written by
`save` recovers identical `char2int` and `num_langs` fields (the class
has no other serialized field), so save-then-load is the identity on
the serialized state. -/
theorem c9_encodings_roundtrip (e : Encodings) :
    loadEnc (saveEnc e) = some e := by
  unfold saveEnc loadEnc
  simp [jsonLookup, decodeCharMap_encode e.char2int]

/-- C9 witness: a concrete encoding table round-trips exactly. -/
theorem c9_encodings_roundtrip_witness :
    loadEnc (saveEnc ⟨[("<PAD>", 0), ("<UNK>", 1), ("a", 4)], 2⟩) =
      some ⟨[("<PAD>", 0), ("<UNK>", 1), ("a", 4)], 2⟩ :=
  c9_encodings_roundtrip ⟨[("<PAD>", 0), ("<UNK>", 1), ("a", 4)], 2⟩

theorem insSorted_perm (x : Nat) (l : List Nat) :
    List.Perm (insSorted x l) (x :: l) := by
  induction l with
  | nil => exact List.Perm.refl _
  | cons y ys ih =>
      unfold insSorted
      split
      · exact List.Perm.refl _
      · exact (ih.cons y).trans (List.Perm.swap x y ys)

theorem pySorted_perm (l : List Nat) : List.Perm (pySorted l) l := by
  induction l with
  | nil => exact List.Perm.refl _
  | cons x xs ih =>
      have : pySorted (x :: xs) = insSorted x (pySorted xs) := rfl
      rw [this]
      exact (insSorted_perm x (pySorted xs)).trans (ih.cons x)

theorem insSorted_sorted (x : Nat) (l : List Nat) (h : l.Pairwise (· ≤ ·)) :
    (insSorted x l).Pairwise (· ≤ ·) := by
  induction l with
  | nil => simp [insSorted]
  | cons y ys ih =>
      rw [List.pairwise_cons] at h
      unfold insSorted
      split
      · rename_i hxy
        rw [List.pairwise_cons]
        refine ⟨?_, List.pairwise_cons.2 h⟩
        intro b hb
        rcases List.mem_cons.1 hb with hb | hb
        · omega
        · exact le_trans hxy (h.1 b hb)
      · rename_i hxy
        rw [List.pairwise_cons]
        refine ⟨?_, ih h.2⟩
        intro b hb
        have hb' : b ∈ x :: ys := (insSorted_perm x ys).mem_iff.1 hb
        rcases List.mem_cons.1 hb' with hb' | hb'
        · omega
        · exact h.1 b hb'

theorem pySorted_sorted (l : List Nat) : (pySorted l).Pairwise (· ≤ ·) := by
  induction l with
  | nil => exact List.Pairwise.nil
  | cons x xs ih => exact insSorted_sorted x (pySorted xs) ih

theorem keepStep_zip_occ (l : List Nat) : ∀ prev cnt : Nat, 1 ≤ cnt →
    keepStep ((prev, cnt) :: l.zip (occFrom prev cnt l)) = runEncodeFrom prev cnt l := by
  induction l with
  | nil => intro prev cnt _; rfl
  | cons y ys ih =>
      intro prev cnt hcnt
      by_cases hy : y = prev
      · subst hy
        simp only [occFrom, if_pos rfl, List.zip_cons_cons, keepStep, runEncodeFrom]
        rw [if_neg (by omega)]
        exact ih y (cnt + 1) (by omega)
      · simp only [occFrom, if_neg hy, List.zip_cons_cons, keepStep, runEncodeFrom]
        rw [if_pos hcnt]
        rw [ih y 1 le_rfl]

theorem collapsed_eq (targets : List Nat) :
    collapsed targets =
      match pySorted targets with
      | [] => []
      | x :: xs => runEncodeFrom x 1 xs := by
  unfold collapsed
  cases h : pySorted targets with
  | nil => rfl
  | cons x xs =>
      simp only [occList, List.zip_cons_cons]
      exact keepStep_zip_occ xs x 1 le_rfl

theorem runEncodeFrom_ne_nil (l : List Nat) : ∀ prev cnt : Nat,
    runEncodeFrom prev cnt l ≠ [] := by
  induction l with
  | nil => intro prev cnt; simp [runEncodeFrom]
  | cons y ys ih =>
      intro prev cnt
      unfold runEncodeFrom
      split
      · exact ih prev (cnt + 1)
      · simp

theorem runEncodeFrom_mem_fst (l : List Nat) : ∀ prev cnt a : Nat,
    (a ∈ (runEncodeFrom prev cnt l).map Prod.fst ↔ a = prev ∨ a ∈ l) := by
  induction l with
  | nil => intro prev cnt a; simp [runEncodeFrom]
  | cons y ys ih =>
      intro prev cnt a
      unfold runEncodeFrom
      split
      · rename_i hy
        subst hy
        rw [ih]
        simp only [List.mem_cons]
        tauto
      · simp only [List.map_cons, List.mem_cons, ih]

theorem runEncodeFrom_count (l : List Nat) : ∀ prev cnt : Nat,
    (prev :: l).Pairwise (· ≤ ·) →
    ∀ p ∈ runEncodeFrom prev cnt l,
      p.2 = if p.1 = prev then cnt + l.count prev else l.count p.1 := by
  induction l with
  | nil =>
      intro prev cnt _ p hp
      have hp' : p = (prev, cnt) := List.mem_singleton.1 hp
      subst hp'
      simp
  | cons y ys ih =>
      intro prev cnt hpw p hp
      rw [List.pairwise_cons] at hpw
      obtain ⟨hple, hpw'⟩ := hpw
      unfold runEncodeFrom at hp
      by_cases hy : y = prev
      · subst hy
        rw [if_pos rfl] at hp
        have := ih y (cnt + 1) hpw' p hp
        rw [this]
        by_cases hpy : p.1 = y
        · rw [if_pos hpy, if_pos hpy, List.count_cons_self]
          omega
        · rw [if_neg hpy, if_neg hpy, List.count_cons_of_ne hpy]
      · rw [if_neg hy] at hp
        have hylt : prev < y := by
          have := hple y (List.mem_cons_self y ys)
          omega
        rcases List.mem_cons.1 hp with hp | hp
        · subst hp
          simp only [if_pos rfl]
          have hzero : (y :: ys).count prev = 0 := by
            rw [List.count_eq_zero]
            intro hmem
            rcases List.mem_cons.1 hmem with hmem | hmem
            · omega
            · have := List.pairwise_cons.1 hpw' |>.1 prev hmem
              omega
          rw [hzero]
          simp
        · have hne : p.1 ≠ prev := by
            have hmem : p.1 ∈ (runEncodeFrom y 1 ys).map Prod.fst :=
              List.mem_map_of_mem Prod.fst hp
            rw [runEncodeFrom_mem_fst] at hmem
            rcases hmem with hmem | hmem
            · omega
            · have := List.pairwise_cons.1 hpw' |>.1 p.1 hmem
              omega
          have := ih y 1 hpw' p hp
          rw [this, if_neg hne]
          by_cases hpy : p.1 = y
          · rw [if_pos hpy, hpy, List.count_cons_self]
            omega
          · rw [if_neg hpy, List.count_cons_of_ne hpy]

theorem runEncodeFrom_fst_strict (l : List Nat) : ∀ prev cnt : Nat,
    (prev :: l).Pairwise (· ≤ ·) →
    ((runEncodeFrom prev cnt l).map Prod.fst).Pairwise (· < ·) := by
  induction l with
  | nil => intro prev cnt _; simp [runEncodeFrom]
  | cons y ys ih =>
      intro prev cnt hpw
      rw [List.pairwise_cons] at hpw
      obtain ⟨hple, hpw'⟩ := hpw
      unfold runEncodeFrom
      split
      · rename_i hy
        subst hy
        exact ih y cnt.succ hpw'
      · rename_i hy
        have hylt : prev < y := by
          have := hple y (List.mem_cons_self y ys)
          omega
        simp only [List.map_cons]
        rw [List.pairwise_cons]
        refine ⟨?_, ih y 1 hpw'⟩
        intro b hb
        rw [runEncodeFrom_mem_fst] at hb
        rcases hb with hb | hb
        · omega
        · have := List.pairwise_cons.1 hpw' |>.1 b hb
          omega

theorem collapsed_count (targets : List Nat) :
    ∀ p ∈ collapsed targets, p.2 = targets.count p.1 := by
  intro p hp
  rw [collapsed_eq] at hp
  cases h : pySorted targets with
  | nil => rw [h] at hp; cases hp
  | cons x xs =>
      rw [h] at hp
      have hsorted : (x :: xs).Pairwise (· ≤ ·) := h ▸ pySorted_sorted targets
      have := runEncodeFrom_count xs x 1 hsorted p hp
      have hcount : (x :: xs).count p.1 = targets.count p.1 := by
        have hperm : List.Perm (x :: xs) targets := h ▸ pySorted_perm targets
        exact hperm.count_eq p.1
      rw [← hcount]
      rw [this]
      by_cases hpx : p.1 = x
      · rw [if_pos hpx, hpx, List.count_cons_self]
        omega
      · rw [if_neg hpx, List.count_cons_of_ne hpx]

theorem collapsed_mem_fst (targets : List Nat) (w : Nat) :
    w ∈ (collapsed targets).map Prod.fst ↔ w ∈ targets := by
  rw [collapsed_eq]
  cases h : pySorted targets with
  | nil =>
      have : targets = [] := ((h ▸ pySorted_perm targets).symm).eq_nil
      subst this
      simp
  | cons x xs =>
      have hperm : List.Perm (x :: xs) targets := h ▸ pySorted_perm targets
      rw [runEncodeFrom_mem_fst]
      rw [← hperm.mem_iff]
      simp

theorem collapsed_fst_nodup (targets : List Nat) :
    ((collapsed targets).map Prod.fst).Nodup := by
  rw [collapsed_eq]
  cases h : pySorted targets with
  | nil => simp
  | cons x xs =>
      have hsorted : (x :: xs).Pairwise (· ≤ ·) := h ▸ pySorted_sorted targets
      exact (runEncodeFrom_fst_strict xs x 1 hsorted).imp Nat.ne_of_lt

theorem collapsed_snd_pos (targets : List Nat) :
    ∀ p ∈ collapsed targets, 1 ≤ p.2 := by
  intro p hp
  rw [collapsed_count targets p hp]
  have hm : p.1 ∈ targets := by
    rw [← collapsed_mem_fst targets p.1]
    exact List.mem_map_of_mem Prod.fst hp
  have := List.count_pos_iff.2 hm
  omega

theorem collapsed_ne_nil (targets : List Nat) (h : targets ≠ []) :
    collapsed targets ≠ [] := by
  rw [collapsed_eq]
  cases hs : pySorted targets with
  | nil =>
      exact absurd ((hs ▸ pySorted_perm targets).symm.eq_nil) h
  | cons x xs => exact runEncodeFrom_ne_nil xs x 1

theorem cumFrom_ne_nil (total last : ℚ) (cs : List Nat) (h : cs ≠ []) :
    cumFrom total last cs ≠ [] := by
  cases cs with
  | nil => exact absurd rfl h
  | cons c cs' => simp [cumFrom]

theorem getLast?_cons_of_ne (a : ℚ) (l : List ℚ) (h : l ≠ []) :
    (a :: l).getLast? = l.getLast? := by
  cases l with
  | nil => exact absurd rfl h
  | cons b m => exact List.getLast?_cons_cons

theorem cumFrom_chain (total : ℚ) (ht : 0 < total) (cs : List Nat) :
    ∀ last : ℚ, (∀ c ∈ cs, 1 ≤ c) →
      List.Chain (· < ·) last (cumFrom total last cs) := by
  induction cs with
  | nil => intro last _; exact List.Chain.nil
  | cons c cs' ih =>
      intro last hcs
      refine List.Chain.cons ?_ (ih _ (fun d hd => hcs d (List.mem_cons_of_mem c hd)))
      have hc : 1 ≤ c := hcs c (List.mem_cons_self c cs')
      have hcq : (0:ℚ) < (c : ℚ) := by exact_mod_cast Nat.lt_of_lt_of_le Nat.zero_lt_one hc
      have : (0:ℚ) < (c : ℚ) / total := div_pos hcq ht
      linarith

theorem cumFrom_getLast (total : ℚ) (cs : List Nat) :
    ∀ last : ℚ, cs ≠ [] →
      (cumFrom total last cs).getLast? = some (last + (cs.sum : ℚ) / total) := by
  induction cs with
  | nil => intro last h; exact absurd rfl h
  | cons c cs' ih =>
      intro last _
      cases cs' with
      | nil =>
          simp [cumFrom]
      | cons c' cs'' =>
          have hstep :
              cumFrom total last (c :: c' :: cs'') =
                (last + (c : ℚ) / total) :: cumFrom total (last + (c : ℚ) / total) (c' :: cs'') := rfl
          rw [hstep,
            getLast?_cons_of_ne _ _ (cumFrom_ne_nil total _ (c' :: cs'') (by simp)),
            ih (last + (c : ℚ) / total) (by simp)]
          congr 1
          push_cast [List.sum_cons]
          ring

/-- C2 counterexample: for the raw neighbor list `[5, 7, 7]`, neighbor
`5` forms a complete bucket of run-length 1, and the immediately
following bucket (neighbor `7`) has run-length 2; the claim predicts
bucket `5` is pruned, but the code keeps both buckets, and `5` appears
in the anchor's final distribution keys. -/
theorem c2_counterexample :
    collapsed [5, 7, 7] = [(5, 1), (7, 2)] ∧ (1:Nat) < 2 ∧
    5 ∈ (flatMapOf [5, 7, 7]).1 := by
  decide

/-- C2 (amended): the keep condition `occ[ii] >= occ[ii+1]` compares an
element's within-run prefix count with the next element's, which holds
exactly at the last element of each run; therefore every distinct
neighbor of the anchor survives the collapse, appearing exactly once,
with its recorded count equal to its multiplicity in the raw neighbor
list — no bucket is ever pruned. -/
theorem c2_collapse_keeps_every_bucket (targets : List Nat) :
    (∀ w, w ∈ (flatMapOf targets).1 ↔ w ∈ targets) ∧
    ((flatMapOf targets).1).Nodup ∧
    (∀ p ∈ collapsed targets, p.2 = targets.count p.1) :=
  ⟨fun w => collapsed_mem_fst targets w, collapsed_fst_nodup targets,
    collapsed_count targets⟩

/-- C5: every per-word co-occurrence distribution built from a
nonempty raw neighbor list has a strictly increasing
cumulative-probability sequence whose final entry equals `1` exactly
(in exact rational arithmetic). -/
theorem c5_cumulative_strict_and_total (targets : List Nat) (h : targets ≠ []) :
    ((flatMapOf targets).2).Pairwise (· < ·) ∧
    ((flatMapOf targets).2).getLast? = some 1 := by
  have hkept := collapsed_ne_nil targets h
  have hobj : (flatMapOf targets).2 =
      cumFrom (((collapsed targets).map Prod.snd).sum : ℚ) 0
        ((collapsed targets).map Prod.snd) := rfl
  have hcpos : ∀ c ∈ (collapsed targets).map Prod.snd, 1 ≤ c := by
    intro c hc
    obtain ⟨p, hp, hpc⟩ := List.mem_map.1 hc
    rw [← hpc]
    exact collapsed_snd_pos targets p hp
  have hcne : (collapsed targets).map Prod.snd ≠ [] := by
    intro hx
    exact hkept (List.map_eq_nil_iff.1 hx)
  have hsum : 0 < ((collapsed targets).map Prod.snd).sum := by
    cases hm : (collapsed targets).map Prod.snd with
    | nil => exact absurd hm hcne
    | cons c cs =>
        have : 1 ≤ c := hcpos c (hm ▸ List.mem_cons_self c cs)
        simp only [List.sum_cons]
        omega
  have htot : (0:ℚ) < (((collapsed targets).map Prod.snd).sum : ℚ) := by
    exact_mod_cast hsum
  constructor
  · rw [hobj]
    have hchain := cumFrom_chain _ htot ((collapsed targets).map Prod.snd) 0 hcpos
    have hpw := List.chain_iff_pairwise.1 hchain
    exact (List.pairwise_cons.1 hpw).2
  · rw [hobj, cumFrom_getLast _ _ 0 hcne]
    rw [zero_add, div_self (ne_of_gt htot)]

/-- C5 witness: the neighbor list `[5, 7, 7]` yields the cumulative
distribution `[1/3, 1]`, whose last entry is exactly `1`. -/
theorem c5_cumulative_witness :
    ([5, 7, 7] : List Nat) ≠ [] ∧
    ((flatMapOf [5, 7, 7]).2).getLast? = some 1 :=
  ⟨by decide, (c5_cumulative_strict_and_total [5, 7, 7] (by decide)).2⟩

/-- C10: `validation_epoch_end` never divides by zero in the
per-language metrics: for every list of per-step count records,
including ones where a language counted zero tokens, the summed total
is replaced by `1` when it is `0`, so all five per-language ratios are
defined (Python division, modelled by `pyDiv`, never raises). -/
theorem c10_per_lang_metrics_total (outs : List LangCounts) :
    ((if (sumCounts outs).total = 0 then 1 else (sumCounts outs).total) ≠ 0) ∧
    (perLangRes (sumCounts outs)).upos.isSome ∧
    (perLangRes (sumCounts outs)).xpos.isSome ∧
    (perLangRes (sumCounts outs)).attrs.isSome ∧
    (perLangRes (sumCounts outs)).uas.isSome ∧
    (perLangRes (sumCounts outs)).las.isSome := by
  have hne : ((if (sumCounts outs).total = 0 then 1 else (sumCounts outs).total) : Nat) ≠ 0 := by
    split <;> omega
  have hq : (((if (sumCounts outs).total = 0 then 1 else (sumCounts outs).total) : Nat) : ℚ) ≠ 0 := by
    exact_mod_cast hne
  refine ⟨hne, ?_, ?_, ?_, ?_, ?_⟩ <;>
    simp only [perLangRes, pyDiv, if_neg hq, Option.isSome_some]

end NLPCube
